import Mathlib

/-!
Verification of the option-pricing engines and the payoff-expression sandbox.

The development shallowly embeds the two pricing modules:

* `monte_carlo_pricing.py`: the payoff-expression sandbox
  (`_SafeExpressionValidator`, `build_payoff_function`) and the Monte Carlo
  engine (`price_option_monte_carlo`);
* `binomial_pricing.py`: the Cox-Ross-Rubinstein lattice engine
  (`_validate_parameters`, `price_option`, `price_option_simplified`).

Modelling conventions:

* Python floats are modelled as rationals (`ℚ`).  The transcendental library
  functions `math.exp` and `math.sqrt` are passed in as explicit function
  arguments `mexp msqrt : ℚ → ℚ`, since their float values are not exactly
  representable; every theorem quantifies over them (adding positivity
  hypotheses where the real exponential's positivity is needed).
* Python `int` is modelled as `ℤ` (arbitrary precision, may be negative).
* Raised exceptions are modelled with `Except`: each Python exception class
  becomes an error type, and a function that can raise returns
  `Except err result`.
* The Python `ast` syntax trees produced by `ast.parse(expression, "eval")`
  are modelled by the inductive `PyExpr`; `ast.parse` itself (the CPython
  parser) is not embedded, so the sandbox functions take the parsed tree
  directly.  The tree type contains both the allow-listed node kinds and
  disallowed kinds an expression can parse to (`Attribute`, `BoolOp`,
  `Lambda`, `Subscript`, and the `MatMult`/`Not`/`Invert`/`Is`/`In`
  operators), so that rejection of disallowed nodes is expressible.
* The pseudo-random generator `random.Random(seed)` is modelled by the
  seed-determined stream of standard-normal draws it produces, passed as a
  function `normals : ℕ → ℚ` giving the variates in draw order.
-/

/-! ## Expression sandbox: syntax trees (`ast` nodes reachable from `mode="eval"`) -/

/-- A Python literal constant (`ast.Constant.value`): a number, a string,
a boolean, or `None`.  Numbers are modelled as rationals. -/
inductive PyConst where
  | num (value : ℚ)
  | str (value : String)
  | boolv (value : Bool)
  | noneConst
deriving DecidableEq

/-- Binary-operator nodes of the Python `ast`.  All except `MatMult` are
members of `_ALLOWED_NODES`. -/
inductive BinOpKind where
  | add | sub | mult | div | pow | mod | floorDiv
  | lshift | rshift | bitOr | bitAnd | bitXor
  | matMult
deriving DecidableEq

/-- Unary-operator nodes of the Python `ast`.  `USub` and `UAdd` are in
`_ALLOWED_NODES`; `Not` and `Invert` are not. -/
inductive UnaryOpKind where
  | uadd | usub | notOp | invert
deriving DecidableEq

/-- Comparison-operator nodes of the Python `ast`.  The first six are in
`_ALLOWED_NODES`; `Is`, `IsNot`, `In`, `NotIn` are not. -/
inductive CmpOpKind where
  | gt | gte | lt | lte | eq | ne
  | isOp | isNotOp | inOp | notInOp
deriving DecidableEq

/-- Python expression syntax trees, as produced by `ast.parse(_, mode="eval")`
(the body of the `ast.Expression`).  The constructors cover the allow-listed
node kinds of `_ALLOWED_NODES` (`Constant`, `Name`, `BinOp`, `UnaryOp`,
`Call`, `Compare`, `IfExp`) together with disallowed expression kinds
(`attrE` models `ast.Attribute`, `boolOp` models `ast.BoolOp`, `lambdaE`
models `ast.Lambda`, `subscript` models `ast.Subscript`) through which an
untrusted expression could try to escape the sandbox. -/
inductive PyExpr where
  | constant (value : PyConst)
  | name (id : String)
  | binOp (left : PyExpr) (op : BinOpKind) (right : PyExpr)
  | unaryOp (op : UnaryOpKind) (operand : PyExpr)
  | call (func : PyExpr) (args : List PyExpr)
  | compare (left : PyExpr) (ops : List CmpOpKind) (comparators : List PyExpr)
  | ifExp (test : PyExpr) (body : PyExpr) (orelse : PyExpr)
  | attrE (value : PyExpr) (attr : String)
  | boolOp (values : List PyExpr)
  | lambdaE (body : PyExpr)
  | subscript (value : PyExpr) (index : PyExpr)

/-- `_ALLOWED_NAMES`: the keys of the evaluation namespace
(`max`, `min`, `abs`, `math`). -/
def ALLOWED_NAMES : List String := ["max", "min", "abs", "math"]

/-- `InvalidPayoffError`: the exception raised by `_SafeExpressionValidator`.
Each constructor corresponds to one of the three raise sites, carrying the
data interpolated into the message:

* `disallowedNode kind` — "Unsafe expression component: {kind}." (from
  `visit`, for a node class outside `_ALLOWED_NODES`);
* `badCall` — "Only simple function calls like max/min/abs are allowed."
  (from `visit_Call`);
* `unknownIdentifier id` — "Unknown identifier {id}. Use S for price."
  (from `visit_Name`). -/
inductive InvalidPayoffError where
  | disallowedNode (kind : String)
  | badCall
  | unknownIdentifier (id : String)
deriving DecidableEq

/-- `True` exactly on results that are not a raised exception. -/
def exceptOk {ε α : Type _} : Except ε α → Bool
  | .ok _ => true
  | .error _ => false

/-- Sequencing of two visitor steps: the first raised exception propagates,
aborting the walk (Python exception semantics). -/
def pySeq {ε : Type _} (x y : Except ε Unit) : Except ε Unit :=
  match x with
  | .error m => .error m
  | .ok _ => y

/-- Visiting a binary-operator node: the `isinstance(node, _ALLOWED_NODES)`
check in `visit`, which fails exactly for `MatMult`. -/
def binOpNodeCheck : BinOpKind → Except InvalidPayoffError Unit
  | .matMult => .error (.disallowedNode "MatMult")
  | _ => .ok ()

/-- Visiting a unary-operator node: fails for `Not` and `Invert`, the unary
operators outside `_ALLOWED_NODES`. -/
def unaryOpNodeCheck : UnaryOpKind → Except InvalidPayoffError Unit
  | .notOp => .error (.disallowedNode "Not")
  | .invert => .error (.disallowedNode "Invert")
  | _ => .ok ()

/-- Visiting a single comparison-operator node: fails for `Is`, `IsNot`,
`In`, `NotIn`, the comparison operators outside `_ALLOWED_NODES`. -/
def cmpOpNodeCheck : CmpOpKind → Except InvalidPayoffError Unit
  | .isOp => .error (.disallowedNode "Is")
  | .isNotOp => .error (.disallowedNode "IsNot")
  | .inOp => .error (.disallowedNode "In")
  | .notInOp => .error (.disallowedNode "NotIn")
  | _ => .ok ()

/-- Visiting the operator list of a `Compare` node, in order. -/
def cmpOpsCheck : List CmpOpKind → Except InvalidPayoffError Unit
  | [] => .ok ()
  | op :: ops => pySeq (cmpOpNodeCheck op) (cmpOpsCheck ops)

mutual

/-- `_SafeExpressionValidator.visit` on an expression node.  Mirrors the
Python visitor: first the `isinstance(node, _ALLOWED_NODES)` check (the
`attrE`/`boolOp`/`lambdaE`/`subscript` cases and the operator-node checks),
then the per-kind visitor (`visit_Call`, `visit_Name`), then
`generic_visit`, which visits child nodes in field order. -/
def visitExpr : PyExpr → Except InvalidPayoffError Unit
  | .constant _ => .ok ()
  | .name id =>
      -- visit_Name: reject an identifier that is neither allow-listed nor "S".
      if ALLOWED_NAMES.contains id || id == "S" then .ok ()
      else .error (.unknownIdentifier id)
  | .binOp l op r =>
      -- generic_visit on BinOp: fields (left, op, right).
      pySeq (visitExpr l) (pySeq (binOpNodeCheck op) (visitExpr r))
  | .unaryOp op e =>
      -- generic_visit on UnaryOp: fields (op, operand).
      pySeq (unaryOpNodeCheck op) (visitExpr e)
  | .call (.name fid) args =>
      -- visit_Call: the callee must be a Name whose id is in _ALLOWED_NAMES;
      -- then generic_visit visits the callee Name and each argument.
      if ALLOWED_NAMES.contains fid then
        pySeq (visitExpr (.name fid)) (visitList args)
      else .error .badCall
  | .call _ _ => .error .badCall
  | .compare l ops comps =>
      -- generic_visit on Compare: fields (left, ops, comparators).
      pySeq (visitExpr l) (pySeq (cmpOpsCheck ops) (visitList comps))
  | .ifExp t b o =>
      -- generic_visit on IfExp: fields (test, body, orelse).
      pySeq (visitExpr t) (pySeq (visitExpr b) (visitExpr o))
  | .attrE _ _ => .error (.disallowedNode "Attribute")
  | .boolOp _ => .error (.disallowedNode "BoolOp")
  | .lambdaE _ => .error (.disallowedNode "Lambda")
  | .subscript _ _ => .error (.disallowedNode "Subscript")

/-- Visiting a list of child nodes in order, stopping at the first raised
exception. -/
def visitList : List PyExpr → Except InvalidPayoffError Unit
  | [] => .ok ()
  | e :: es => pySeq (visitExpr e) (visitList es)

end

/-- `build_payoff_function`, after parsing: run `_SafeExpressionValidator`
on the tree and, only if validation passes, compile it and return the payoff
closure.  The compiled closure is represented by the validated tree itself;
no claim depends on the closure's evaluation semantics, only on whether a
closure is produced at all. -/
def build_payoff_function (e : PyExpr) : Except InvalidPayoffError PyExpr :=
  match visitExpr e with
  | .error m => .error m
  | .ok _ => .ok e

/-- A binary-operator node outside `_ALLOWED_NODES`. -/
def disallowedBinOp : BinOpKind → Bool
  | .matMult => true
  | _ => false

/-- A unary-operator node outside `_ALLOWED_NODES`. -/
def disallowedUnaryOp : UnaryOpKind → Bool
  | .notOp => true
  | .invert => true
  | _ => false

/-- A comparison-operator node outside `_ALLOWED_NODES`. -/
def disallowedCmpOp : CmpOpKind → Bool
  | .isOp => true
  | .isNotOp => true
  | .inOp => true
  | .notInOp => true
  | _ => false

mutual

/-- An expression tree contains an offending construct in the sense of the
sandbox allow-list: a node kind outside `_ALLOWED_NODES`, a call whose
callee is not one of the allow-listed names, or a bare identifier that is
neither `S` nor an allow-listed name. -/
def hasOffense : PyExpr → Bool
  | .constant _ => false
  | .name id => !(ALLOWED_NAMES.contains id || id == "S")
  | .binOp l op r => disallowedBinOp op || hasOffense l || hasOffense r
  | .unaryOp op e => disallowedUnaryOp op || hasOffense e
  | .call f args =>
      (match f with
       | .name fid => !ALLOWED_NAMES.contains fid
       | _ => true) || hasOffenseList args
  | .compare l ops comps =>
      hasOffense l || ops.any disallowedCmpOp || hasOffenseList comps
  | .ifExp t b o => hasOffense t || hasOffense b || hasOffense o
  | .attrE _ _ => true
  | .boolOp _ => true
  | .lambdaE _ => true
  | .subscript _ _ => true

/-- Some expression in the list contains an offending construct. -/
def hasOffenseList : List PyExpr → Bool
  | [] => false
  | e :: es => hasOffense e || hasOffenseList es

end

theorem exceptOk_pySeq {ε : Type _} (x y : Except ε Unit) :
    exceptOk (pySeq x y) = (exceptOk x && exceptOk y) := by
  cases x <;> rfl

theorem binOpNodeCheck_not_ok (op : BinOpKind) (h : disallowedBinOp op = true) :
    exceptOk (binOpNodeCheck op) = false := by
  cases op <;> simp_all [disallowedBinOp, binOpNodeCheck, exceptOk]

theorem unaryOpNodeCheck_not_ok (op : UnaryOpKind) (h : disallowedUnaryOp op = true) :
    exceptOk (unaryOpNodeCheck op) = false := by
  cases op <;> simp_all [disallowedUnaryOp, unaryOpNodeCheck, exceptOk]

theorem cmpOpsCheck_not_ok (ops : List CmpOpKind) (h : ops.any disallowedCmpOp = true) :
    exceptOk (cmpOpsCheck ops) = false := by
  induction ops with
  | nil => simp at h
  | cons op ops ih =>
      rw [List.any_cons, Bool.or_eq_true] at h
      rw [cmpOpsCheck, exceptOk_pySeq]
      rcases h with hop | hops
      · have : exceptOk (cmpOpNodeCheck op) = false := by
          cases op <;> simp_all [disallowedCmpOp, cmpOpNodeCheck, exceptOk]
        simp [this]
      · simp [ih hops]

mutual

/-- Helper: the validator raises on every tree containing an offending
construct. -/
theorem visitExpr_not_ok (e : PyExpr) (h : hasOffense e = true) :
    exceptOk (visitExpr e) = false := by
  cases e with
  | constant c => simp [hasOffense] at h
  | name id =>
      rw [hasOffense, Bool.not_eq_eq_eq_not, Bool.not_true] at h
      rw [visitExpr, h]
      rfl
  | binOp l op r =>
      rw [hasOffense, Bool.or_eq_true, Bool.or_eq_true] at h
      rw [visitExpr, exceptOk_pySeq, exceptOk_pySeq]
      rcases h with (hop | hl) | hr
      · rw [binOpNodeCheck_not_ok op hop]; simp
      · rw [visitExpr_not_ok l hl]; simp
      · rw [visitExpr_not_ok r hr]; simp
  | unaryOp op e =>
      rw [hasOffense, Bool.or_eq_true] at h
      rw [visitExpr, exceptOk_pySeq]
      rcases h with hop | he
      · rw [unaryOpNodeCheck_not_ok op hop]; simp
      · rw [visitExpr_not_ok e he]; simp
  | call f args =>
      cases f with
      | name fid =>
          rw [hasOffense, Bool.or_eq_true] at h
          by_cases hc : ALLOWED_NAMES.contains fid = true
          · have hargs : hasOffenseList args = true := by
              rcases h with hf | hargs
              · rw [hc] at hf; simp at hf
              · exact hargs
            rw [visitExpr, if_pos hc, exceptOk_pySeq,
              visitList_not_ok args hargs]
            simp
          · rw [visitExpr, if_neg hc]; rfl
      | constant c => rfl
      | binOp l op r => rfl
      | unaryOp op e => rfl
      | call g bs => rfl
      | compare l ops comps => rfl
      | ifExp t b o => rfl
      | attrE v a => rfl
      | boolOp vs => rfl
      | lambdaE b => rfl
      | subscript v i => rfl
  | compare l ops comps =>
      rw [hasOffense, Bool.or_eq_true, Bool.or_eq_true] at h
      rw [visitExpr, exceptOk_pySeq, exceptOk_pySeq]
      rcases h with (hl | hops) | hcomps
      · rw [visitExpr_not_ok l hl]; simp
      · rw [cmpOpsCheck_not_ok ops hops]; simp
      · rw [visitList_not_ok comps hcomps]; simp
  | ifExp t b o =>
      rw [hasOffense, Bool.or_eq_true, Bool.or_eq_true] at h
      rw [visitExpr, exceptOk_pySeq, exceptOk_pySeq]
      rcases h with (ht | hb) | ho
      · rw [visitExpr_not_ok t ht]; simp
      · rw [visitExpr_not_ok b hb]; simp
      · rw [visitExpr_not_ok o ho]; simp
  | attrE v a => rfl
  | boolOp vs => rfl
  | lambdaE b => rfl
  | subscript v i => rfl

/-- Helper: visiting a list containing an offending tree raises. -/
theorem visitList_not_ok (es : List PyExpr) (h : hasOffenseList es = true) :
    exceptOk (visitList es) = false := by
  cases es with
  | nil => simp [hasOffenseList] at h
  | cons e es =>
      rw [hasOffenseList, Bool.or_eq_true] at h
      rw [visitList, exceptOk_pySeq]
      rcases h with he | hes
      · rw [visitExpr_not_ok e he]; simp
      · rw [visitList_not_ok es hes]; simp

end

/-- **C1.** For every payoff expression whose syntax tree contains a node
kind outside the allow-list, or a call whose callee is not one of the
allow-listed names (`max`, `min`, `abs`, `math`), or a bare identifier that
is neither `S` nor an allow-listed name, `build_payoff_function` raises
`InvalidPayoffError` at compile time: the result is an error and no payoff
evaluator is ever produced, so no evaluation of the expression can take
place.  The error constructor names the offending construct or identifier. -/
theorem build_payoff_function_rejects_offenses (e : PyExpr)
    (h : hasOffense e = true) :
    ∃ m, build_payoff_function e = Except.error m := by
  have hv := visitExpr_not_ok e h
  rw [build_payoff_function]
  cases he : visitExpr e with
  | error m => exact ⟨m, rfl⟩
  | ok u => rw [he] at hv; exact absurd hv (by simp [exceptOk])

/-- Witness for C1: the bare identifier `K` (not `S`, not allow-listed) is
an offense and is rejected. -/
theorem build_payoff_function_rejects_offenses_witness :
    ∃ m, build_payoff_function (.name "K") = Except.error m :=
  build_payoff_function_rejects_offenses (.name "K") (by decide)

/-- **C2** (failing-input theorem).  The expression `math.exp(S)` — a call
whose callee is the qualified attribute `math.exp` — is *rejected* by
`build_payoff_function` with the `visit_Call` error, because the callee is
an `Attribute` node rather than a `Name`: compilation does not succeed,
contradicting the spec's promise that qualified members of the math
namespace are accepted (and the module's own docstring and `_ALLOWED_NAMES`,
which include `math` for exactly that purpose). -/
theorem build_payoff_function_rejects_math_exp :
    build_payoff_function
      (.call (.attrE (.name "math") "exp") [.name "S"]) =
      Except.error .badCall := rfl

/-- **C3** (counterexample).  The expression `max(S, "abc")` contains the
non-numeric literal `"abc"`, yet `build_payoff_function` accepts it: the
validator admits every `Constant` node regardless of its value, so no
`InvalidPayoffError` is raised at compile time. -/
theorem build_payoff_function_accepts_string_literal :
    build_payoff_function
      (.call (.name "max") [.name "S", .constant (.str "abc")]) =
      Except.ok (.call (.name "max") [.name "S", .constant (.str "abc")]) := rfl

/-- **C3** (amended).  The payoff grammar admits every literal constant,
numeric or not: for any constant value `c` (number, string, boolean or
`None`), an expression containing the literal `c` — here `max(S, c)` —
passes validation and compilation succeeds; a non-numeric literal is not
rejected at compile time (it can only fail later, at evaluation time). -/
theorem build_payoff_function_accepts_any_constant (c : PyConst) :
    build_payoff_function (.call (.name "max") [.name "S", .constant c]) =
      Except.ok (.call (.name "max") [.name "S", .constant c]) := rfl

/-! ## Binomial lattice engine (`binomial_pricing.py`) -/

/-- `BinomialParameters`: configuration for the binomial pricing tree.
Fields in dataclass order.  The Python defaults are `dividend_yield = 0.0`,
`option_type = "call"`, `american = False`; no claim depends on them.
`option_type` is a string at runtime (`Literal["call", "put"]` is not
enforced), which is why `_validate_parameters` checks it explicitly. -/
structure BinomialParameters where
  spot : ℚ
  strike : ℚ
  maturity : ℚ
  rate : ℚ
  volatility : ℚ
  steps : ℤ
  dividend_yield : ℚ
  option_type : String
  american : Bool

/-- `InvalidParameterError`: one constructor per raise site, in source
order; `probabilityOutOfRange` is the raise inside `price_option`. -/
inductive InvalidParameterError where
  | nonPositiveSpot
  | nonPositiveStrike
  | nonPositiveMaturity
  | nonPositiveVolatility
  | nonPositiveSteps
  | badOptionType
  | probabilityOutOfRange
deriving DecidableEq

/-- `_validate_parameters`: the guard chain, in source order. -/
def validate_parameters (params : BinomialParameters) :
    Except InvalidParameterError Unit :=
  if params.spot ≤ 0 then .error .nonPositiveSpot
  else if params.strike ≤ 0 then .error .nonPositiveStrike
  else if params.maturity ≤ 0 then .error .nonPositiveMaturity
  else if params.volatility ≤ 0 then .error .nonPositiveVolatility
  else if params.steps ≤ 0 then .error .nonPositiveSteps
  else if params.option_type ≠ "call" ∧ params.option_type ≠ "put" then
    .error .badOptionType
  else .ok ()

/-- `dt = params.maturity / params.steps`. -/
def lattice_dt (params : BinomialParameters) : ℚ :=
  params.maturity / (params.steps : ℚ)

/-- `up = math.exp(params.volatility * math.sqrt(dt))`. -/
def lattice_up (mexp msqrt : ℚ → ℚ) (params : BinomialParameters) : ℚ :=
  mexp (params.volatility * msqrt (lattice_dt params))

/-- `down = 1 / up`. -/
def lattice_down (mexp msqrt : ℚ → ℚ) (params : BinomialParameters) : ℚ :=
  1 / lattice_up mexp msqrt params

/-- `discount = math.exp(-params.rate * dt)`. -/
def lattice_discount (mexp : ℚ → ℚ) (params : BinomialParameters) : ℚ :=
  mexp (-params.rate * lattice_dt params)

/-- `growth = math.exp((params.rate - params.dividend_yield) * dt)`. -/
def lattice_growth (mexp : ℚ → ℚ) (params : BinomialParameters) : ℚ :=
  mexp ((params.rate - params.dividend_yield) * lattice_dt params)

/-- `probability = (growth - down) / (up - down)`. -/
def lattice_probability (mexp msqrt : ℚ → ℚ) (params : BinomialParameters) : ℚ :=
  (lattice_growth mexp params - lattice_down mexp msqrt params) /
    (lattice_up mexp msqrt params - lattice_down mexp msqrt params)

/-- The nested `payoff` function of `price_option`: call pays
`max(price - strike, 0)`, anything else (after validation, only `"put"`)
pays `max(strike - price, 0)`. -/
def payoff (option_type : String) (strike : ℚ) (price : ℚ) : ℚ :=
  if option_type == "call" then max (price - strike) 0
  else max (strike - price) 0

/-- The body of the inner backward-induction loop at node `i`:
`continuation = discount * (probability * option_values[i+1] +
(1 - probability) * option_values[i])`, replaced for American exercise by
`max(continuation, payoff(underlying_price i))`. -/
def nodeUpdate (discount probability : ℚ) (am : Bool) (pay : ℚ → ℚ)
    (und : ℕ → ℚ) (i : ℕ) (vi vip1 : ℚ) : ℚ :=
  let continuation := discount * (probability * vip1 + (1 - probability) * vi)
  if am then max continuation (pay (und i)) else continuation

/-- The inner loop `for i in range(step + 1)`: starting at index `i` with
`count` iterations left, overwrite `option_values[i]` in place and move on.
Iteration `i` reads indices `i` and `i+1`, which later iterations have not
yet overwritten, so the loop reads only later-step values. -/
def backStepInner (discount probability : ℚ) (am : Bool) (pay : ℚ → ℚ)
    (und : ℕ → ℚ) : ℕ → ℕ → List ℚ → List ℚ
  | 0, _, v => v
  | count + 1, i, v =>
      backStepInner discount probability am pay und count (i + 1)
        (v.set i (nodeUpdate discount probability am pay und i
          (v.getD i 0) (v.getD (i + 1) 0)))

/-- The outer loop `for step in range(params.steps - 1, -1, -1)`:
`backInduction … k v` processes steps `k-1, k-2, …, 0`, each step `s`
running the inner loop over nodes `0 … s` with the underlying price at
node `i` recomputed as `spot * up ** i * down ** (s - i)`. -/
def backInduction (discount probability : ℚ) (am : Bool) (pay : ℚ → ℚ)
    (spot u d : ℚ) : ℕ → List ℚ → List ℚ
  | 0, v => v
  | k + 1, v =>
      backInduction discount probability am pay spot u d k
        (backStepInner discount probability am pay
          (fun i => spot * u ^ i * d ^ (k - i)) (k + 1) 0 v)

/-- The tree construction and backward induction of `price_option` (the part
after the probability check): terminal asset prices
`spot * up ** j * down ** (steps - j)` for `j in range(steps + 1)`, terminal
option values through `payoff`, backward induction, and `option_values[0]`. -/
def latticeResult (mexp msqrt : ℚ → ℚ) (params : BinomialParameters) : ℚ :=
  let n := params.steps.toNat
  let up := lattice_up mexp msqrt params
  let down := lattice_down mexp msqrt params
  let asset_prices := (List.range (n + 1)).map
    (fun j => params.spot * up ^ j * down ^ (n - j))
  let option_values := asset_prices.map (payoff params.option_type params.strike)
  (backInduction (lattice_discount mexp params)
    (lattice_probability mexp msqrt params) params.american
    (payoff params.option_type params.strike) params.spot up down n
    option_values).getD 0 0

/-- `price_option`: validate, derive the lattice quantities, enforce
`0 <= probability <= 1` (raising `InvalidParameterError` otherwise, before
any tree construction), then build the tree and run backward induction. -/
def price_option (mexp msqrt : ℚ → ℚ) (params : BinomialParameters) :
    Except InvalidParameterError ℚ :=
  match validate_parameters params with
  | .error e => .error e
  | .ok _ =>
      if 0 ≤ lattice_probability mexp msqrt params ∧
          lattice_probability mexp msqrt params ≤ 1 then
        .ok (latticeResult mexp msqrt params)
      else .error .probabilityOutOfRange

/-- `price_option_simplified`: the convenience wrapper, forwarding its
arguments (signature order: spot, strike, maturity, rate, volatility,
steps, option_type, american, dividend_yield) into a `BinomialParameters`
and calling `price_option`. -/
def price_option_simplified (mexp msqrt : ℚ → ℚ)
    (spot strike maturity rate volatility : ℚ) (steps : ℤ)
    (option_type : String) (american : Bool) (dividend_yield : ℚ) :
    Except InvalidParameterError ℚ :=
  price_option mexp msqrt
    ⟨spot, strike, maturity, rate, volatility, steps, dividend_yield,
      option_type, american⟩

/-- The input-domain failure conditions of claim C5: non-positive spot,
strike, maturity, volatility or step count, or an unrecognized option
kind. -/
def invalidLatticeInputs (params : BinomialParameters) : Prop :=
  params.spot ≤ 0 ∨ params.strike ≤ 0 ∨ params.maturity ≤ 0 ∨
    params.volatility ≤ 0 ∨ params.steps ≤ 0 ∨
    (params.option_type ≠ "call" ∧ params.option_type ≠ "put")

theorem validate_parameters_ok_iff (params : BinomialParameters) :
    validate_parameters params = .ok () ↔ ¬ invalidLatticeInputs params := by
  rw [validate_parameters, invalidLatticeInputs]
  split_ifs with h1 h2 h3 h4 h5 h6 <;> simp_all

/-- **C5.** For every `BinomialParameters` with non-positive spot, strike,
maturity, volatility or step count, or an unrecognized option kind, or a
derived risk-neutral probability outside `[0, 1]`, `price_option` raises
`InvalidParameterError`: the result is an error and the tree-construction
branch (`latticeResult`) is never reached — in particular an out-of-range
probability aborts pricing rather than being clamped into `[0, 1]`. -/
theorem price_option_rejects_invalid (mexp msqrt : ℚ → ℚ)
    (params : BinomialParameters)
    (h : invalidLatticeInputs params ∨
      ¬ (0 ≤ lattice_probability mexp msqrt params ∧
         lattice_probability mexp msqrt params ≤ 1)) :
    ∃ e, price_option mexp msqrt params = Except.error e := by
  rw [price_option]
  cases hv : validate_parameters params with
  | error e => exact ⟨e, rfl⟩
  | ok u =>
      cases u
      have hval : ¬ invalidLatticeInputs params :=
        (validate_parameters_ok_iff params).mp hv
      rcases h with hbad | hprob
      · exact absurd hbad hval
      · rw [if_neg hprob]
        exact ⟨.probabilityOutOfRange, rfl⟩

/-- **C10.** For every choice of the wrapper's arguments,
`price_option_simplified` returns exactly the same result (value or error)
as `price_option` applied to the `BinomialParameters` built from those same
arguments. -/
theorem price_option_simplified_eq_price_option (mexp msqrt : ℚ → ℚ)
    (spot strike maturity rate volatility : ℚ) (steps : ℤ)
    (option_type : String) (american : Bool) (dividend_yield : ℚ) :
    price_option_simplified mexp msqrt spot strike maturity rate volatility
        steps option_type american dividend_yield =
      price_option mexp msqrt
        ⟨spot, strike, maturity, rate, volatility, steps, dividend_yield,
          option_type, american⟩ := rfl

/-- Follows the spec's description of the lattice algorithm, for comparison
with `price_option`: the value of the node `i` up-moves above the bottom,
`r` steps before maturity, on a tree with `steps` levels.  At maturity
(`r = 0`, level `steps`, node price `spot·u^i·d^(steps-i)`) it is the
terminal payoff; below, it is the discounted risk-neutral expectation
`disc·(p·V[i+1] + (1-p)·V[i])` of the two successor values, replaced for
American exercise by its maximum with the immediate payoff at the node's
underlying price `spot·u^i·d^(level-i)` (level `steps - (r+1)`). -/
def specNodeValue (discount probability : ℚ) (am : Bool) (pay : ℚ → ℚ)
    (spot u d : ℚ) (steps : ℕ) : ℕ → ℕ → ℚ
  | 0, i => pay (spot * u ^ i * d ^ (steps - i))
  | r + 1, i =>
      if am then
        max (discount *
            (probability * specNodeValue discount probability am pay spot u d steps r (i + 1) +
             (1 - probability) * specNodeValue discount probability am pay spot u d steps r i))
          (pay (spot * u ^ i * d ^ (steps - (r + 1) - i)))
      else
        discount *
          (probability * specNodeValue discount probability am pay spot u d steps r (i + 1) +
           (1 - probability) * specNodeValue discount probability am pay spot u d steps r i)

theorem backStepInner_length (dc p : ℚ) (am : Bool) (pay : ℚ → ℚ)
    (und : ℕ → ℚ) :
    ∀ (count i : ℕ) (v : List ℚ),
      (backStepInner dc p am pay und count i v).length = v.length := by
  intro count
  induction count with
  | zero => intro i v; rfl
  | succ n ih =>
      intro i v
      rw [backStepInner, ih, List.length_set]

/-- The inner loop is equivalent to a pointwise update: entry `j` becomes
`nodeUpdate` of the *original* entries `j` and `j+1` when `j` lies in the
processed range, and is untouched otherwise.  This holds because iteration
`j` writes index `j` before any later iteration reads it. -/
theorem backStepInner_getD (dc p : ℚ) (am : Bool) (pay : ℚ → ℚ)
    (und : ℕ → ℚ) :
    ∀ (count i : ℕ) (v : List ℚ), i + count ≤ v.length → ∀ (j : ℕ),
      (backStepInner dc p am pay und count i v).getD j 0 =
        if i ≤ j ∧ j < i + count then
          nodeUpdate dc p am pay und j (v.getD j 0) (v.getD (j + 1) 0)
        else v.getD j 0 := by
  intro count
  induction count with
  | zero =>
      intro i v hlen j
      rw [backStepInner, if_neg (by omega)]
  | succ n ih =>
      intro i v hlen j
      rw [backStepInner,
        ih (i + 1) _ (by rw [List.length_set]; omega) j]
      by_cases h1 : i ≤ j ∧ j < i + (n + 1)
      · rw [if_pos h1]
        by_cases h2 : j = i
        · subst h2
          rw [if_neg (by omega), List.getD_eq_getElem?_getD,
            List.getElem?_set_self (by omega)]
          rfl
        · rw [if_pos (by omega)]
          simp only [List.getD_eq_getElem?_getD]
          rw [List.getElem?_set_ne (show i ≠ j by omega),
            List.getElem?_set_ne (show i ≠ j + 1 by omega)]
      · rw [if_neg (by omega), if_neg h1]
        simp only [List.getD_eq_getElem?_getD]
        rw [List.getElem?_set_ne (show i ≠ j by omega)]

theorem backInduction_length (dc p : ℚ) (am : Bool) (pay : ℚ → ℚ)
    (spot u d : ℚ) :
    ∀ (k : ℕ) (v : List ℚ),
      (backInduction dc p am pay spot u d k v).length = v.length := by
  intro k
  induction k with
  | zero => intro v; rfl
  | succ n ih =>
      intro v
      rw [backInduction, ih, backStepInner_length]

/-- Loop invariant of the backward induction: if the value array agrees
with the spec-side node values at every node of level `k` (that is,
`n - k` steps before maturity), then running the remaining `k` outer
steps produces the spec-side root value. -/
theorem backInduction_getD (dc p : ℚ) (am : Bool) (pay : ℚ → ℚ)
    (spot u d : ℚ) (n : ℕ) :
    ∀ (k : ℕ) (v : List ℚ), k ≤ n → v.length = n + 1 →
      (∀ i, i ≤ k → v.getD i 0 = specNodeValue dc p am pay spot u d n (n - k) i) →
      (backInduction dc p am pay spot u d k v).getD 0 0 =
        specNodeValue dc p am pay spot u d n n 0 := by
  intro k
  induction k with
  | zero =>
      intro v _ _ hv
      rw [backInduction]
      simpa using hv 0 (by omega)
  | succ k ih =>
      intro v hk hlen hv
      rw [backInduction]
      apply ih
      · omega
      · rw [backStepInner_length]; exact hlen
      · intro i hi
        rw [backStepInner_getD dc p am pay _ (k + 1) 0 v (by omega) i,
          if_pos (by omega), hv i (by omega), hv (i + 1) (by omega)]
        have hnk : n - k = (n - (k + 1)) + 1 := by omega
        rw [hnk, specNodeValue, nodeUpdate]
        have harith : n - (n - (k + 1) + 1) - i = k - i := by omega
        simp only [harith]

/-- Destructuring a successful `price_option` run: validation passed, the
risk-neutral probability lies in `[0, 1]`, and the value returned is the
backward-induction result. -/
theorem price_option_ok_elim (mexp msqrt : ℚ → ℚ) (params : BinomialParameters)
    (x : ℚ) (h : price_option mexp msqrt params = .ok x) :
    validate_parameters params = .ok () ∧
      (0 ≤ lattice_probability mexp msqrt params ∧
       lattice_probability mexp msqrt params ≤ 1) ∧
      x = latticeResult mexp msqrt params := by
  rw [price_option] at h
  cases hv : validate_parameters params with
  | error e => rw [hv] at h; exact absurd h (by simp)
  | ok u =>
      cases u
      rw [hv] at h
      by_cases hp : 0 ≤ lattice_probability mexp msqrt params ∧
          lattice_probability mexp msqrt params ≤ 1
      · rw [if_pos hp] at h
        exact ⟨rfl, hp, (Except.ok.inj h).symm⟩
      · rw [if_neg hp] at h
        exact absurd h (by simp)

/-- The terminal option values `[payoff(spot·u^j·d^(steps-j)) for j in
range(steps+1)]`. -/
def latticeTerminal (mexp msqrt : ℚ → ℚ) (params : BinomialParameters) : List ℚ :=
  ((List.range (params.steps.toNat + 1)).map
    (fun j => params.spot * lattice_up mexp msqrt params ^ j *
      lattice_down mexp msqrt params ^ (params.steps.toNat - j))).map
    (payoff params.option_type params.strike)

theorem latticeResult_eq (mexp msqrt : ℚ → ℚ) (params : BinomialParameters) :
    latticeResult mexp msqrt params =
      (backInduction (lattice_discount mexp params)
        (lattice_probability mexp msqrt params) params.american
        (payoff params.option_type params.strike) params.spot
        (lattice_up mexp msqrt params) (lattice_down mexp msqrt params)
        params.steps.toNat (latticeTerminal mexp msqrt params)).getD 0 0 := rfl

theorem latticeTerminal_length (mexp msqrt : ℚ → ℚ) (params : BinomialParameters) :
    (latticeTerminal mexp msqrt params).length = params.steps.toNat + 1 := by
  rw [latticeTerminal, List.length_map, List.length_map, List.length_range]

theorem latticeTerminal_getD (mexp msqrt : ℚ → ℚ) (params : BinomialParameters)
    (i : ℕ) (hi : i < params.steps.toNat + 1) :
    (latticeTerminal mexp msqrt params).getD i 0 =
      payoff params.option_type params.strike
        (params.spot * lattice_up mexp msqrt params ^ i *
          lattice_down mexp msqrt params ^ (params.steps.toNat - i)) := by
  rw [latticeTerminal, List.getD_eq_getElem?_getD, List.getElem?_map,
    List.getElem?_map, List.getElem?_range hi]
  rfl

/-- **C4.** Whenever `price_option` returns a price, that price is exactly
the value described by the spec's algorithm: terminal node `j` carries the
payoff of `spot·u^j·d^(steps-j)`, each earlier node carries the discounted
expectation `disc·(p·V[i+1]+(1-p)·V[i])` of its two successors — replaced,
for American exercise, by the maximum of that continuation value and the
immediate payoff at `spot·u^i·d^(step-i)` — and the returned price is the
root value (`specNodeValue … steps steps 0`). -/
theorem price_option_eq_spec_induction (mexp msqrt : ℚ → ℚ)
    (params : BinomialParameters) (x : ℚ)
    (h : price_option mexp msqrt params = .ok x) :
    x = specNodeValue (lattice_discount mexp params)
      (lattice_probability mexp msqrt params) params.american
      (payoff params.option_type params.strike) params.spot
      (lattice_up mexp msqrt params) (lattice_down mexp msqrt params)
      params.steps.toNat params.steps.toNat 0 := by
  obtain ⟨hv, hp, hx⟩ := price_option_ok_elim mexp msqrt params x h
  rw [hx, latticeResult_eq]
  apply backInduction_getD
  · omega
  · exact latticeTerminal_length mexp msqrt params
  · intro i hi
    rw [latticeTerminal_getD mexp msqrt params i (by omega), Nat.sub_self,
      specNodeValue]

/-- Replace only the `american` flag of a parameter record, leaving every
other field unchanged ("all other parameters identical"). -/
def setAmerican (params : BinomialParameters) (b : Bool) : BinomialParameters :=
  ⟨params.spot, params.strike, params.maturity, params.rate, params.volatility,
    params.steps, params.dividend_yield, params.option_type, b⟩

theorem nodeUpdate_mono (dc p : ℚ) (pay : ℚ → ℚ) (und : ℕ → ℚ) (i : ℕ)
    (hd : 0 ≤ dc) (hp0 : 0 ≤ p) (hp1 : p ≤ 1) (a a2 b b2 : ℚ)
    (ha : a ≤ a2) (hb : b ≤ b2) :
    nodeUpdate dc p false pay und i a b ≤ nodeUpdate dc p true pay und i a2 b2 := by
  have hcont : dc * (p * b + (1 - p) * a) ≤ dc * (p * b2 + (1 - p) * a2) := by
    apply mul_le_mul_of_nonneg_left _ hd
    have h1 : p * b ≤ p * b2 := mul_le_mul_of_nonneg_left hb hp0
    have h2 : (1 - p) * a ≤ (1 - p) * a2 :=
      mul_le_mul_of_nonneg_left ha (by linarith)
    linarith
  simp only [nodeUpdate]
  rw [if_pos trivial]
  exact le_trans hcont (le_max_left _ _)

theorem backStepInner_mono (dc p : ℚ) (pay : ℚ → ℚ) (und : ℕ → ℚ)
    (hd : 0 ≤ dc) (hp0 : 0 ≤ p) (hp1 : p ≤ 1) :
    ∀ (count i : ℕ) (vE vA : List ℚ), vE.length = vA.length →
      i + count ≤ vE.length → (∀ j, vE.getD j 0 ≤ vA.getD j 0) →
      ∀ j, (backStepInner dc p false pay und count i vE).getD j 0 ≤
        (backStepInner dc p true pay und count i vA).getD j 0 := by
  intro count i vE vA hlen hcount hle j
  rw [backStepInner_getD dc p false pay und count i vE hcount j,
    backStepInner_getD dc p true pay und count i vA (by omega) j]
  by_cases h : i ≤ j ∧ j < i + count
  · rw [if_pos h, if_pos h]
    exact nodeUpdate_mono dc p pay und j hd hp0 hp1 _ _ _ _ (hle j) (hle (j + 1))
  · rw [if_neg h, if_neg h]
    exact hle j

theorem backInduction_mono (dc p : ℚ) (pay : ℚ → ℚ) (spot u d : ℚ)
    (hd : 0 ≤ dc) (hp0 : 0 ≤ p) (hp1 : p ≤ 1) :
    ∀ (k : ℕ) (vE vA : List ℚ), vE.length = vA.length → k ≤ vE.length →
      (∀ j, vE.getD j 0 ≤ vA.getD j 0) →
      ∀ j, (backInduction dc p false pay spot u d k vE).getD j 0 ≤
        (backInduction dc p true pay spot u d k vA).getD j 0 := by
  intro k
  induction k with
  | zero =>
      intro vE vA _ _ hle j
      rw [backInduction, backInduction]
      exact hle j
  | succ k ih =>
      intro vE vA hlen hk hle j
      rw [backInduction, backInduction]
      apply ih
      · rw [backStepInner_length, backStepInner_length, hlen]
      · rw [backStepInner_length]; omega
      · intro j2
        exact backStepInner_mono dc p pay _ hd hp0 hp1 (k + 1) 0 vE vA hlen
          (by omega) hle j2

/-- **C6.** For identical (and valid) parameters, the American price
returned by `price_option` is at least the European price, for calls and
puts alike.  The hypothesis `0 ≤ discount` is automatic in the source,
where the discount factor is `math.exp(-rate*dt) > 0`; it is stated
explicitly here because the exponential is abstract. -/
theorem american_ge_european (mexp msqrt : ℚ → ℚ) (params : BinomialParameters)
    (pe pa : ℚ)
    (he : price_option mexp msqrt (setAmerican params false) = .ok pe)
    (ha : price_option mexp msqrt (setAmerican params true) = .ok pa)
    (hd : 0 ≤ lattice_discount mexp params) :
    pe ≤ pa := by
  obtain ⟨hvE, hpE, hxE⟩ := price_option_ok_elim _ _ _ _ he
  obtain ⟨hvA, hpA, hxA⟩ := price_option_ok_elim _ _ _ _ ha
  rw [hxE, hxA, latticeResult_eq, latticeResult_eq]
  show (backInduction (lattice_discount mexp params)
      (lattice_probability mexp msqrt params) false
      (payoff params.option_type params.strike) params.spot
      (lattice_up mexp msqrt params) (lattice_down mexp msqrt params)
      params.steps.toNat (latticeTerminal mexp msqrt params)).getD 0 0 ≤
    (backInduction (lattice_discount mexp params)
      (lattice_probability mexp msqrt params) true
      (payoff params.option_type params.strike) params.spot
      (lattice_up mexp msqrt params) (lattice_down mexp msqrt params)
      params.steps.toNat (latticeTerminal mexp msqrt params)).getD 0 0
  apply backInduction_mono _ _ _ _ _ _ hd hpE.1 hpE.2
  · rfl
  · rw [latticeTerminal_length]; omega
  · intro j; exact le_refl _

/-! Concrete instantiations used by the witnesses: a (truncated) exponential
`x ↦ 1 + x`, the identity for the square root (exact at `dt = 1`), an
at-the-money one-step call, and a high-rate parameter set whose derived
probability is `5/3 > 1`. -/

def wExp : ℚ → ℚ := fun x => 1 + x

def wSqrt : ℚ → ℚ := fun x => x

def wParams : BinomialParameters := ⟨100, 100, 1, 0, 1/2, 1, 0, "call", false⟩

def wParamsBad : BinomialParameters := ⟨1, 1, 1, 2, 1, 1, 0, "call", false⟩

/-- Witness for C4: on the concrete one-step call (`u = 3/2`, `d = 2/3`,
`disc = 1`, `p = 2/5`) `price_option` returns `20`, which therefore equals
the spec-side backward-induction value. -/
theorem price_option_eq_spec_induction_witness :
    (20 : ℚ) = specNodeValue (lattice_discount wExp wParams)
      (lattice_probability wExp wSqrt wParams) wParams.american
      (payoff wParams.option_type wParams.strike) wParams.spot
      (lattice_up wExp wSqrt wParams) (lattice_down wExp wSqrt wParams)
      wParams.steps.toNat wParams.steps.toNat 0 :=
  price_option_eq_spec_induction wExp wSqrt wParams 20 (by
    norm_num [price_option, validate_parameters, wParams, wExp, wSqrt,
      latticeResult, lattice_probability, lattice_growth, lattice_discount,
      lattice_up, lattice_down, lattice_dt, backInduction, backStepInner,
      nodeUpdate, payoff, List.range_succ])

/-- Witness for C5: on the high-rate parameter set the derived probability
is `5/3`, outside `[0, 1]`, and `price_option` returns an error. -/
theorem price_option_rejects_invalid_witness :
    ∃ e, price_option wExp wSqrt wParamsBad = Except.error e :=
  price_option_rejects_invalid wExp wSqrt wParamsBad (Or.inr (by
    norm_num [lattice_probability, lattice_growth, lattice_down, lattice_up,
      lattice_dt, wParamsBad, wExp, wSqrt]))

/-- Witness for C6: on the concrete one-step call both exercise styles
price to `20`, and the theorem yields `20 ≤ 20`. -/
theorem american_ge_european_witness : (20 : ℚ) ≤ 20 :=
  american_ge_european wExp wSqrt wParams 20 20
    (by
      norm_num [price_option, validate_parameters, wParams, wExp, wSqrt,
        setAmerican, latticeResult, lattice_probability, lattice_growth,
        lattice_discount, lattice_up, lattice_down, lattice_dt, backInduction,
        backStepInner, nodeUpdate, payoff, List.range_succ])
    (by
      norm_num [price_option, validate_parameters, wParams, wExp, wSqrt,
        setAmerican, latticeResult, lattice_probability, lattice_growth,
        lattice_discount, lattice_up, lattice_down, lattice_dt, backInduction,
        backStepInner, nodeUpdate, payoff, List.range_succ])
    (by norm_num [lattice_discount, lattice_dt, wParams, wExp])

/-! ## Monte Carlo engine (`monte_carlo_pricing.py`) -/

/-- `MonteCarloParameters`, fields in dataclass order.  The Python defaults
are `simulations = 100_000` and `seed = None`; no claim depends on them. -/
structure MonteCarloParameters where
  spot : ℚ
  maturity : ℚ
  rate : ℚ
  volatility : ℚ
  simulations : ℤ
  seed : Option ℤ

/-- `InvalidMonteCarloParameterError`: one constructor per raise site of
`_validate_monte_carlo_parameters`, in source order. -/
inductive InvalidMonteCarloParameterError where
  | nonPositiveSpot
  | nonPositiveMaturity
  | nonPositiveVolatility
  | nonPositiveSimulations
deriving DecidableEq

/-- `_validate_monte_carlo_parameters`: the guard chain, in source order. -/
def validate_monte_carlo_parameters (params : MonteCarloParameters) :
    Except InvalidMonteCarloParameterError Unit :=
  if params.spot ≤ 0 then .error .nonPositiveSpot
  else if params.maturity ≤ 0 then .error .nonPositiveMaturity
  else if params.volatility ≤ 0 then .error .nonPositiveVolatility
  else if params.simulations ≤ 0 then .error .nonPositiveSimulations
  else .ok ()

/-- An error escaping `price_option_monte_carlo`: either its own parameter
validation error, or an exception raised by the payoff callable (of an
arbitrary error type `ε`), propagated unchanged. -/
inductive MonteCarloError (ε : Type) where
  | param (e : InvalidMonteCarloParameterError)
  | payoffErr (e : ε)
deriving DecidableEq

/-- `drift = (params.rate - 0.5 * params.volatility**2) * params.maturity`. -/
def mcDrift (params : MonteCarloParameters) : ℚ :=
  (params.rate - 1/2 * params.volatility ^ 2) * params.maturity

/-- `diffusion = params.volatility * math.sqrt(params.maturity)`. -/
def mcDiffusion (msqrt : ℚ → ℚ) (params : MonteCarloParameters) : ℚ :=
  params.volatility * msqrt params.maturity

/-- The terminal price of path `k`:
`spot * math.exp(drift + diffusion * z)` with `z` the `k`-th normal draw. -/
def mcTerminal (mexp msqrt : ℚ → ℚ) (normals : ℕ → ℚ)
    (params : MonteCarloParameters) (k : ℕ) : ℚ :=
  params.spot * mexp (mcDrift params + mcDiffusion msqrt params * normals k)

/-- The simulation loop `for _ in range(params.simulations)`, with `n`
iterations left, at path index `k`, accumulator `acc`: draw
`z = rng.normalvariate(0.0, 1.0)` (the `k`-th element of the generator's
stream), form the terminal price, evaluate the payoff — a raised exception
propagates out of the loop — and add it to the running sum. -/
def mcLoop {ε : Type} (mexp : ℚ → ℚ) (payoffFn : ℚ → Except ε ℚ)
    (normals : ℕ → ℚ) (spot drift diffusion : ℚ) :
    ℕ → ℕ → ℚ → Except ε ℚ
  | 0, _, acc => .ok acc
  | n + 1, k, acc =>
      match payoffFn (spot * mexp (drift + diffusion * normals k)) with
      | .error e => .error e
      | .ok v => mcLoop mexp payoffFn normals spot drift diffusion n (k + 1) (acc + v)

/-- The normal variates consumed by `mcLoop`, in draw order: each iteration
draws exactly one variate before evaluating the payoff, so a failing payoff
still consumes its own draw and then stops the loop. -/
def mcLoopDraws {ε : Type} (mexp : ℚ → ℚ) (payoffFn : ℚ → Except ε ℚ)
    (normals : ℕ → ℚ) (spot drift diffusion : ℚ) : ℕ → ℕ → List ℚ
  | 0, _ => []
  | n + 1, k =>
      match payoffFn (spot * mexp (drift + diffusion * normals k)) with
      | .error _ => [normals k]
      | .ok _ => normals k :: mcLoopDraws mexp payoffFn normals spot drift diffusion n (k + 1)

/-- `price_option_monte_carlo`: validate, construct a fresh generator
`rng = random.Random(params.seed)` (modelled by its draw stream `normals`),
compute drift and diffusion once, run the simulation loop from a zero sum,
and return `exp(-rate*maturity) * (payoff_sum / params.simulations)` —
dividing by the *requested* simulation count. -/
def price_option_monte_carlo {ε : Type} (mexp msqrt : ℚ → ℚ)
    (normals : ℕ → ℚ) (params : MonteCarloParameters)
    (payoffFn : ℚ → Except ε ℚ) : Except (MonteCarloError ε) ℚ :=
  match validate_monte_carlo_parameters params with
  | .error e => .error (.param e)
  | .ok _ =>
      match mcLoop mexp payoffFn normals params.spot (mcDrift params)
          (mcDiffusion msqrt params) params.simulations.toNat 0 0 with
      | .error e => .error (.payoffErr e)
      | .ok s => .ok (mexp (-params.rate * params.maturity) *
          (s / (params.simulations : ℚ)))

/-- The trace of normal variates a `price_option_monte_carlo` call consumes
from its generator (none when validation fails before the loop). -/
def monte_carlo_draws {ε : Type} (mexp msqrt : ℚ → ℚ) (normals : ℕ → ℚ)
    (params : MonteCarloParameters) (payoffFn : ℚ → Except ε ℚ) : List ℚ :=
  match validate_monte_carlo_parameters params with
  | .error _ => []
  | .ok _ => mcLoopDraws mexp payoffFn normals params.spot (mcDrift params)
      (mcDiffusion msqrt params) params.simulations.toNat 0

theorem mcLoop_ok {ε : Type} (mexp : ℚ → ℚ) (payoffFn : ℚ → Except ε ℚ)
    (normals : ℕ → ℚ) (spot drift diffusion : ℚ) (g : ℕ → ℚ) :
    ∀ (n k : ℕ) (acc : ℚ),
      (∀ j, j < n →
        payoffFn (spot * mexp (drift + diffusion * normals (k + j))) = .ok (g (k + j))) →
      mcLoop mexp payoffFn normals spot drift diffusion n k acc =
        .ok (acc + ∑ j ∈ Finset.range n, g (k + j)) := by
  intro n
  induction n with
  | zero => intro k acc h; simp [mcLoop]
  | succ n ih =>
      intro k acc h
      rw [mcLoop]
      have h0 : payoffFn (spot * mexp (drift + diffusion * normals k)) = .ok (g k) := by
        simpa using h 0 (by omega)
      rw [h0]
      show mcLoop mexp payoffFn normals spot drift diffusion n (k + 1) (acc + g k) = _
      rw [ih (k + 1) (acc + g k) (fun j hj => by
        have := h (j + 1) (by omega)
        rw [show k + (j + 1) = k + 1 + j by omega] at this
        exact this)]
      congr 1
      rw [Finset.sum_range_succ']
      have harg : ∀ j, g (k + 1 + j) = g (k + (j + 1)) := fun j => by
        rw [show k + 1 + j = k + (j + 1) by omega]
      rw [Finset.sum_congr rfl (fun j _ => harg j)]
      simp only [Nat.add_zero]
      ring

/-- **C7.** For every validated `MonteCarloParameters` and payoff whose
evaluations all succeed, `price_option_monte_carlo` uses exactly one
standard-normal draw per path (path `k` uses draw `k`, inside
`mcTerminal`), prices path `k` at `spot·exp(drift + diffusion·z_k)` with
`drift = (rate - volatility²/2)·maturity` and
`diffusion = volatility·sqrt(maturity)`, and returns
`exp(-rate·maturity) · (Σ payoffs / simulations)`, dividing by the
requested simulation count. -/
theorem monte_carlo_estimate {ε : Type} (mexp msqrt : ℚ → ℚ)
    (normals : ℕ → ℚ) (params : MonteCarloParameters)
    (payoffFn : ℚ → Except ε ℚ) (f : ℕ → ℚ)
    (hv : validate_monte_carlo_parameters params = .ok ())
    (hall : ∀ k, k < params.simulations.toNat →
      payoffFn (mcTerminal mexp msqrt normals params k) = .ok (f k)) :
    price_option_monte_carlo mexp msqrt normals params payoffFn =
      .ok (mexp (-params.rate * params.maturity) *
        ((∑ k ∈ Finset.range params.simulations.toNat, f k) /
          (params.simulations : ℚ))) := by
  have hloop := mcLoop_ok mexp payoffFn normals params.spot (mcDrift params)
    (mcDiffusion msqrt params) f params.simulations.toNat 0 0
    (fun j hj => by simpa [mcTerminal, Nat.zero_add] using hall j hj)
  rw [price_option_monte_carlo, hv, hloop]
  simp [Nat.zero_add]

theorem mcLoopDraws_eq {ε : Type} (mexp : ℚ → ℚ) (payoffFn : ℚ → Except ε ℚ)
    (normals : ℕ → ℚ) (spot drift diffusion : ℚ) :
    ∀ (n k : ℕ),
      (∀ j, j < n →
        exceptOk (payoffFn (spot * mexp (drift + diffusion * normals (k + j)))) = true) →
      mcLoopDraws mexp payoffFn normals spot drift diffusion n k =
        (List.range n).map (fun j => normals (k + j)) := by
  intro n
  induction n with
  | zero => intro k h; simp [mcLoopDraws]
  | succ n ih =>
      intro k h
      rw [mcLoopDraws]
      have h0 := h 0 (by omega)
      rw [show k + 0 = k from rfl] at h0
      cases hp : payoffFn (spot * mexp (drift + diffusion * normals k)) with
      | error e =>
          rw [hp] at h0
          simp [exceptOk] at h0
      | ok v =>
          show normals k :: mcLoopDraws mexp payoffFn normals spot drift diffusion n (k + 1) = _
          rw [ih (k + 1) (fun j hj => by
            have := h (j + 1) (by omega)
            rw [show k + (j + 1) = k + 1 + j by omega] at this
            exact this)]
          rw [List.range_succ_eq_map, List.map_cons, List.map_map]
          congr 1
          apply List.map_congr_left
          intro a _
          show normals (k + 1 + a) = normals (k + (a + 1))
          rw [show k + 1 + a = k + (a + 1) by omega]

/-- **C8.** With an explicit seed, `price_option_monte_carlo` is
reproducible: the generator is a fresh `random.Random(params.seed)` local
to the call, so two calls with identical parameters and identical payoff
see the identical seed-determined stream `seedStream s` and return
identical results; moreover the variates the call consumes are exactly the
first `simulations` elements of that stream, in draw order — one variate
per simulated path — and the summation is the fixed sequential fold
`mcLoop`. -/
theorem monte_carlo_reproducible {ε : Type} (mexp msqrt : ℚ → ℚ)
    (seedStream : ℤ → ℕ → ℚ) (params : MonteCarloParameters)
    (payoffFn : ℚ → Except ε ℚ) (s : ℤ)
    (_hseed : params.seed = some s)
    (hv : validate_monte_carlo_parameters params = .ok ())
    (hall : ∀ k, k < params.simulations.toNat →
      exceptOk (payoffFn (mcTerminal mexp msqrt (seedStream s) params k)) = true) :
    price_option_monte_carlo mexp msqrt (seedStream s) params payoffFn =
        price_option_monte_carlo mexp msqrt (seedStream s) params payoffFn ∧
      monte_carlo_draws mexp msqrt (seedStream s) params payoffFn =
        (List.range params.simulations.toNat).map (seedStream s) := by
  refine ⟨rfl, ?_⟩
  rw [monte_carlo_draws, hv]
  show mcLoopDraws mexp payoffFn (seedStream s) params.spot (mcDrift params)
      (mcDiffusion msqrt params) params.simulations.toNat 0 = _
  rw [mcLoopDraws_eq mexp payoffFn (seedStream s) params.spot (mcDrift params)
    (mcDiffusion msqrt params) params.simulations.toNat 0 (fun j hj => by
      simpa [mcTerminal, Nat.zero_add] using hall j hj)]
  simp [Nat.zero_add]

theorem mcLoop_error {ε : Type} (mexp : ℚ → ℚ) (payoffFn : ℚ → Except ε ℚ)
    (normals : ℕ → ℚ) (spot drift diffusion : ℚ) (e : ε) :
    ∀ (m n k : ℕ) (acc : ℚ), m < n →
      (∀ j, j < m →
        exceptOk (payoffFn (spot * mexp (drift + diffusion * normals (k + j)))) = true) →
      payoffFn (spot * mexp (drift + diffusion * normals (k + m))) = .error e →
      mcLoop mexp payoffFn normals spot drift diffusion n k acc = .error e := by
  intro m
  induction m with
  | zero =>
      intro n k acc hn hprev herr
      obtain ⟨n2, rfl⟩ : ∃ n2, n = n2 + 1 := ⟨n - 1, by omega⟩
      rw [show k + 0 = k from rfl] at herr
      rw [mcLoop, herr]
  | succ m ih =>
      intro n k acc hn hprev herr
      obtain ⟨n2, rfl⟩ : ∃ n2, n = n2 + 1 := ⟨n - 1, by omega⟩
      rw [mcLoop]
      have h0 := hprev 0 (by omega)
      cases hp : payoffFn (spot * mexp (drift + diffusion * normals (k + 0))) with
      | error e2 => rw [hp] at h0; simp [exceptOk] at h0
      | ok v =>
          rw [show k + 0 = k from rfl] at hp
          rw [hp]
          show mcLoop mexp payoffFn normals spot drift diffusion n2 (k + 1) (acc + v) = _
          apply ih n2 (k + 1) (acc + v) (by omega)
          · intro j hj
            have := hprev (j + 1) (by omega)
            rw [show k + (j + 1) = k + 1 + j by omega] at this
            exact this
          · rw [show k + (m + 1) = k + 1 + m by omega] at herr
            exact herr

/-- **C9.** If the payoff callable raises at some path's terminal price
(every earlier path having evaluated successfully), the exception
propagates out of `price_option_monte_carlo` unchanged and no price is
returned: the failing path is not skipped and its payoff is not replaced
by any default value. -/
theorem monte_carlo_propagates_payoff_error {ε : Type} (mexp msqrt : ℚ → ℚ)
    (normals : ℕ → ℚ) (params : MonteCarloParameters)
    (payoffFn : ℚ → Except ε ℚ) (e : ε) (m : ℕ)
    (hv : validate_monte_carlo_parameters params = .ok ())
    (hm : m < params.simulations.toNat)
    (hprev : ∀ j, j < m →
      exceptOk (payoffFn (mcTerminal mexp msqrt normals params j)) = true)
    (herr : payoffFn (mcTerminal mexp msqrt normals params m) = .error e) :
    price_option_monte_carlo mexp msqrt normals params payoffFn =
      .error (.payoffErr e) := by
  have hloop := mcLoop_error mexp payoffFn normals params.spot (mcDrift params)
    (mcDiffusion msqrt params) e m params.simulations.toNat 0 0 hm
    (fun j hj => by simpa [mcTerminal, Nat.zero_add] using hprev j hj)
    (by simpa [mcTerminal, Nat.zero_add] using herr)
  rw [price_option_monte_carlo, hv, hloop]

/-! Concrete instantiations for the Monte Carlo witnesses: two paths,
draw stream `k ↦ k`, zero rate, seed `7`. -/

def wNormals : ℕ → ℚ := fun k => (k : ℚ)

def wMC : MonteCarloParameters := ⟨100, 1, 0, 1/2, 2, some 7⟩

def wPayoffOne : ℚ → Except String ℚ := fun _ => .ok 1

def wSeedStream : ℤ → ℕ → ℚ := fun _ k => (k : ℚ)

def wPayoffFail : ℚ → Except String ℚ := fun _ => .error "division by zero"

/-- Witness for C7: with the constant payoff `1` over two paths the
estimate is `exp(-rate·maturity) · (2 / 2)`. -/
theorem monte_carlo_estimate_witness :
    price_option_monte_carlo wExp wSqrt wNormals wMC wPayoffOne =
      .ok (wExp (-wMC.rate * wMC.maturity) *
        ((∑ _k ∈ Finset.range wMC.simulations.toNat, (1 : ℚ)) /
          (wMC.simulations : ℚ))) :=
  monte_carlo_estimate wExp wSqrt wNormals wMC wPayoffOne (fun _ => 1)
    (by norm_num [validate_monte_carlo_parameters, wMC])
    (fun _ _ => rfl)

/-- Witness for C8: with seed `7` the two runs agree and the call consumes
exactly the stream prefix `[0, 1]`, one draw per path. -/
theorem monte_carlo_reproducible_witness :
    price_option_monte_carlo wExp wSqrt (wSeedStream 7) wMC wPayoffOne =
        price_option_monte_carlo wExp wSqrt (wSeedStream 7) wMC wPayoffOne ∧
      monte_carlo_draws wExp wSqrt (wSeedStream 7) wMC wPayoffOne =
        (List.range wMC.simulations.toNat).map (wSeedStream 7) :=
  monte_carlo_reproducible wExp wSqrt wSeedStream wMC wPayoffOne 7 rfl
    (by norm_num [validate_monte_carlo_parameters, wMC])
    (fun _ _ => rfl)

/-- Witness for C9: a payoff that raises on its very first evaluation makes
the call return that exact error. -/
theorem monte_carlo_propagates_payoff_error_witness :
    price_option_monte_carlo wExp wSqrt wNormals wMC wPayoffFail =
      .error (.payoffErr "division by zero") :=
  monte_carlo_propagates_payoff_error wExp wSqrt wNormals wMC wPayoffFail
    "division by zero" 0
    (by norm_num [validate_monte_carlo_parameters, wMC])
    (by decide)
    (fun j hj => absurd hj (by omega))
    rfl
